import Mathlib

/-!  Verification of the `SHAPSexismAnalyzer` module (`sexismanalyzer.py`).

The Python class owns a static per-language keyword table and exposes
`get_important_tokens` (keyword matching plus randomized bucket scoring and a
cumulative-threshold selection), `highlight_tokens` (case-insensitive
word-boundary emphasis markup) and `analyze_tweet` (the composition).

Modelling choices:
* Python floats are modelled as `ℚ`; every `np.random.uniform(lo, hi)` call is
  modelled as `lo + u * (hi - lo)` where `u` is the next value of an ambient
  stream `rng : Nat → ℚ` of raw draws (valid runs have `0 ≤ u < 1`).
* The Python `dict` is an insertion-ordered association list; assignment to an
  existing key updates the stored value in place, as `dict` does.
* `sorted(..., key=score, reverse=True)` and `sorted(..., key=len, reverse=True)`
  are stable descending sorts, modelled by `List.insertionSort` with the
  corresponding non-strict "greater or equal" relations.
* The `KeyError` raised by `self.important_tokens[language]` is modelled by
  `Except KeyError`; `analyze_tweet` propagates it unchanged.
* `re.sub(r'\b' + re.escape(token) + r'\b', f"**{token}**", text, re.IGNORECASE)`
  is modelled by a left-to-right scan inserting the fixed marker pair around
  each case-insensitive word-boundary occurrence, resuming after the matched
  occurrence; word characters are ASCII `[a-zA-Z0-9_]` and case-insensitive
  comparison is ASCII `Char.toLower` equality, matching the regex semantics on
  the ASCII texts the module targets.
-/

namespace SexismAnalyzer

/-- Record of the three keyword lists a language owns
(`self.important_tokens[lang]` in the source). -/
structure LangTokens where
  high_importance : List String
  medium_importance : List String
  sexist_indicators : List String
deriving DecidableEq

/-- English keyword lists (source lines 11-27). -/
def enTokens : LangTokens where
  high_importance :=
    ["slut", "women", "girls", "fem", "wife", "scholar", "woman",
     "onde", "ches", "teaching", "stitute", "pregnant", "gang",
     "men", "biggest", "bl", "girl", "bit", "pen", "financial"]
  medium_importance :=
    ["feminist", "periods", "pro", "her", "ok", "she", "boys",
     "ti", "like", "mbo", "ips", "ts", "coverage", "really",
     "wife", "dies", "finger", "trophy", "dressed"]
  sexist_indicators :=
    ["kitchen", "belong", "emotional", "weak", "stupid", "makeup",
     "dress", "hysteric", "irrational", "shopping", "gossip",
     "moody", "sensitive", "drivers", "protect"]

/-- Spanish keyword lists (source lines 28-44). -/
def esTokens : LangTokens where
  high_importance :=
    ["nar", "masculino", "prend", "mach", "zo", "mujeres", "mans",
     "señor", "feminist", "mujer", "lab", "vas", "hombre", "mach",
     "dama", "tu", "bia", "od", "sexual", "fem"]
  medium_importance :=
    ["femenino", "doctor", "princesa", "nen", "masculin", "mujeres",
     "niña", "bella", "ton", "niños", "ment", "novi", "apa",
     "ones", "ios", "var", "novia", "bian", "golf"]
  sexist_indicators :=
    ["cocina", "emocionales", "débil", "estúpida", "maquillaje",
     "histérica", "irracional", "compras", "sensibles", "conductoras",
     "proteger", "servir", "natural", "amargadas"]

/-- Lookup in the `self.important_tokens` dict, whose keys are `"en"` and `"es"`. -/
def important_tokens_table (language : String) : Option LangTokens :=
  if language = "en" then some enTokens
  else if language = "es" then some esTokens
  else none

/-- The `KeyError` a failed Python dict subscript raises, carrying the missing key. -/
structure KeyError where
  key : String
deriving DecidableEq

/-- Python `str.lower()` (ASCII case mapping). -/
def lowerStr (s : String) : String := String.mk (s.data.map Char.toLower)

/-- Does the first list occur at the very front of the second? -/
def leadsList : List Char → List Char → Bool
  | [], _ => true
  | _ :: _, [] => false
  | a :: as, b :: bs => a = b && leadsList as bs

/-- Python substring containment `needle in hay`. -/
def occursIn (needle : List Char) : List Char → Bool
  | [] => needle.isEmpty
  | c :: rest => leadsList needle (c :: rest) || occursIn needle rest

/-- One `np.random.uniform(lo, hi)` draw, consuming raw draw number `k`. -/
def uniform (rng : Nat → ℚ) (k : Nat) (lo hi : ℚ) : ℚ := lo + rng k * (hi - lo)

/-- Python dict assignment `d[key] = v`: update in place if present, else append. -/
def dictInsert (key : String) (v : ℚ) : List (String × ℚ) → List (String × ℚ)
  | [] => [(key, v)]
  | (k2, v2) :: rest =>
    if k2 = key then (k2, v) :: rest else (k2, v2) :: dictInsert key v rest

/-- One keyword-scoring loop of `get_important_tokens`: for each keyword present
in the lowered text (and, when `checkNew` is set, not already scored), draw a
uniform score in `[lo, hi)` and store it.  The `Nat` component counts raw draws
consumed so far. -/
def scorePass (rng : Nat → ℚ) (lo hi : ℚ) (checkNew : Bool) (tl : String) :
    List String → List (String × ℚ) × Nat → List (String × ℚ) × Nat
  | [], st => st
  | tok :: rest, (scores, k) =>
    if occursIn tok.data tl.data && (!checkNew || (List.lookup tok scores).isNone) then
      scorePass rng lo hi checkNew tl rest (dictInsert tok (uniform rng k lo hi) scores, k + 1)
    else
      scorePass rng lo hi checkNew tl rest (scores, k)

/-- State after the `high_importance` loop (scores drawn from `[0.8, 1.0)`). -/
def stageHigh (rng : Nat → ℚ) (tl : String) (lt : LangTokens) : List (String × ℚ) × Nat :=
  scorePass rng (4/5) 1 false tl lt.high_importance ([], 0)

/-- State after the `medium_importance` loop (scores drawn from `[0.5, 0.8)`). -/
def stageMedium (rng : Nat → ℚ) (tl : String) (lt : LangTokens) : List (String × ℚ) × Nat :=
  scorePass rng (1/2) (4/5) true tl lt.medium_importance (stageHigh rng tl lt)

/-- State after the `sexist_indicators` loop (scores drawn from `[0.7, 0.95)`). -/
def stageSexist (rng : Nat → ℚ) (tl : String) (lt : LangTokens) : List (String × ℚ) × Nat :=
  scorePass rng (7/10) (19/20) true tl lt.sexist_indicators (stageMedium rng tl lt)

/-- Python `re.sub(r'[^a-zA-Z]', '', word)`. -/
def cleanWord (w : String) : String := String.mk (w.data.filter Char.isAlpha)

/-- Accumulate the current word (reversed) while scanning; flush at whitespace.
Empty pieces are never produced, matching Python `str.split()` with no
separator argument. -/
def wordsAux (cur : List Char) : List Char → List String
  | [] => if cur.isEmpty then [] else [String.mk cur.reverse]
  | c :: rest =>
    if c.isWhitespace then
      (if cur.isEmpty then [] else [String.mk cur.reverse]) ++ wordsAux [] rest
    else wordsAux (c :: cur) rest

/-- Python `str.split()`: the maximal whitespace-free chunks, in order. -/
def splitWords (s : String) : List String := wordsAux [] s.data

/-- Fallback loop over the first five whitespace-separated words: clean each
word and score it in `[0.1, 0.4)` when the cleaned word is longer than 2. -/
def fallbackPass (rng : Nat → ℚ) :
    List String → List (String × ℚ) × Nat → List (String × ℚ) × Nat
  | [], st => st
  | w :: rest, (scores, k) =>
    if 2 < (cleanWord w).length then
      fallbackPass rng rest (dictInsert (cleanWord w) (uniform rng k (1/10) (2/5)) scores, k + 1)
    else fallbackPass rng rest (scores, k)

/-- The finished `token_scores` dict of one `get_important_tokens` call: the
three keyword loops, then (only if nothing was scored) the fallback loop. -/
def token_scores (rng : Nat → ℚ) (tl : String) (lt : LangTokens) : List (String × ℚ) × Nat :=
  let st := stageSexist rng tl lt
  if st.1.isEmpty then fallbackPass rng ((splitWords tl).take 5) st else st

/-- Ordering used by `sorted(token_scores.items(), key=lambda x: x[1], reverse=True)`. -/
def scoreGe (a b : String × ℚ) : Prop := b.2 ≤ a.2

instance : DecidableRel scoreGe := fun a b => inferInstanceAs (Decidable (b.2 ≤ a.2))

instance : IsTotal (String × ℚ) scoreGe := ⟨fun a b => le_total b.2 a.2⟩

instance : IsTrans (String × ℚ) scoreGe := ⟨fun _ _ _ h1 h2 => le_trans h2 h1⟩

/-- Python `sorted(..., key=lambda x: x[1], reverse=True)`: stable descending sort. -/
def sortDesc (l : List (String × ℚ)) : List (String × ℚ) := List.insertionSort scoreGe l

/-- The selection loop of `get_important_tokens`: walk the sorted scores
accumulating normalized weight, append each token, and stop as soon as the
threshold is reached or ten tokens are held (checked after appending). -/
def selectLoop (threshold total : ℚ) : ℚ → Nat → List (String × ℚ) → List String
  | _, _, [] => []
  | cum, cnt, (tok, s) :: rest =>
    let cum2 := cum + (if 0 < total then s / total else 0)
    if threshold ≤ cum2 ∨ 10 ≤ cnt + 1 then [tok]
    else tok :: selectLoop threshold total cum2 (cnt + 1) rest

/-- Body of `get_important_tokens` once the language lookup has succeeded. -/
def selectTokens (rng : Nat → ℚ) (text : String) (lt : LangTokens) (threshold : ℚ) :
    List String :=
  let sorted := sortDesc (token_scores rng (lowerStr text) lt).1
  let total := (sorted.map Prod.snd).sum
  selectLoop threshold total 0 0 sorted

/-- `get_important_tokens(text, language, threshold)` (source lines 47-93). -/
def get_important_tokens (rng : Nat → ℚ) (text : String) (language : String)
    (threshold : ℚ) : Except KeyError (List String) :=
  match important_tokens_table language with
  | none => Except.error ⟨language⟩
  | some lt => Except.ok (selectTokens rng text lt threshold)

/-- Regex word character (`\w`, ASCII). -/
def isWordChar (c : Char) : Bool := c.isAlphanum || c = '_'

/-- Wordness of an optional character; out-of-text positions are non-word. -/
def wordOpt : Option Char → Bool
  | some c => isWordChar c
  | none => false

/-- The `\b` zero-width assertion between two (optional) adjacent characters. -/
def boundaryB (a b : Option Char) : Bool := wordOpt a != wordOpt b

/-- Case-insensitive test that the token chars lead the text here. -/
def ciPre : List Char → List Char → Bool
  | [], _ => true
  | _ :: _, [] => false
  | a :: as, b :: bs => (a.toLower = b.toLower) && ciPre as bs

/-- Does `\b token \b` (case-insensitively) match at the current position,
given the character just before the position and the remaining text? -/
def matchAt (t : List Char) (prev : Option Char) (rest : List Char) : Bool :=
  ciPre t rest && boundaryB prev rest.head? &&
    boundaryB (rest.take t.length).getLast? (rest.drop t.length).head?

/-- One piece of a parsed `re.sub` replacement template: a literal character,
or the whole-match reference `\g<0>`. -/
inductive TmplItem where
  | lit (c : Char)
  | group0
deriving DecidableEq

/-- The template escapes `re` knows (`\a \b \f \n \r \t \v \\`); in a
replacement template `\b` is a backspace, not a word boundary. -/
def escMap (c : Char) : Option Char :=
  if c = 'a' then some (Char.ofNat 7)
  else if c = 'b' then some (Char.ofNat 8)
  else if c = 'f' then some (Char.ofNat 12)
  else if c = 'n' then some (Char.ofNat 10)
  else if c = 'r' then some (Char.ofNat 13)
  else if c = 't' then some (Char.ofNat 9)
  else if c = 'v' then some (Char.ofNat 11)
  else if c = '\\' then some '\\'
  else none

/-- Is the character an octal digit `0`-`7`? -/
def isOctDigit (c : Char) : Bool := '0' ≤ c && c ≤ '7'

/-- Numeric value of a decimal digit character. -/
def octVal (c : Char) : Nat := c.toNat - 48

/-- Split a `\g<...>` group name at the first `>`: the name and the remainder
of the template, or nothing when the `>` is missing. -/
def scanGroupName : List Char → Option (List Char × List Char)
  | [] => none
  | '>' :: rest => some ([], rest)
  | c :: rest =>
    match scanGroupName rest with
    | none => none
    | some (name, rem) => some (c :: name, rem)

/-- Parse a `re.sub` replacement template, as CPython's `parse_template` does
for a pattern with no capture groups: process the known character escapes, the
octal escapes `\0oo` and `\ooo`, and `\g<0>` (the whole match); keep unknown
non-letter escapes as the two characters; fail (`none`, modelling `re.error`)
on group references (the pattern has no groups), on unknown ASCII-letter
escapes, on malformed `\g`, on octal values above 0o377 and on a trailing
backslash.  The fuel argument (`≥` remaining length) only forces termination;
every step consumes at least one character. -/
def parseTemplateF : Nat → List Char → Option (List TmplItem)
  | 0, l => if l.isEmpty then some [] else none
  | _ + 1, [] => some []
  | fuel + 1, '\\' :: rest =>
    match rest with
    | [] => none
    | c :: rest2 =>
      if c = 'g' then
        match rest2 with
        | '<' :: rest3 =>
          match scanGroupName rest3 with
          | none => none
          | some (name, rem) =>
            if name ≠ [] ∧ name.all (fun d => d = '0') then
              (parseTemplateF fuel rem).map (fun out => TmplItem.group0 :: out)
            else none
        | _ => none
      else if c = '0' then
        match rest2 with
        | d1 :: rest3 =>
          if isOctDigit d1 then
            match rest3 with
            | d2 :: rest4 =>
              if isOctDigit d2 then
                (parseTemplateF fuel rest4).map
                  (fun out => TmplItem.lit (Char.ofNat (octVal d1 * 8 + octVal d2)) :: out)
              else (parseTemplateF fuel rest3).map
                (fun out => TmplItem.lit (Char.ofNat (octVal d1)) :: out)
            | [] => (parseTemplateF fuel rest3).map
                (fun out => TmplItem.lit (Char.ofNat (octVal d1)) :: out)
          else (parseTemplateF fuel rest2).map (fun out => TmplItem.lit (Char.ofNat 0) :: out)
        | [] => (parseTemplateF fuel rest2).map (fun out => TmplItem.lit (Char.ofNat 0) :: out)
      else if c.isDigit then
        match rest2 with
        | d2 :: rest3 =>
          if d2.isDigit then
            match rest3 with
            | d3 :: rest4 =>
              if isOctDigit c && isOctDigit d2 && isOctDigit d3 then
                if octVal c * 64 + octVal d2 * 8 + octVal d3 ≤ 255 then
                  (parseTemplateF fuel rest4).map
                    (fun out =>
                      TmplItem.lit (Char.ofNat (octVal c * 64 + octVal d2 * 8 + octVal d3)) :: out)
                else none
              else none
            | [] => none
          else none
        | [] => none
      else
        match escMap c with
        | some e => (parseTemplateF fuel rest2).map (fun out => TmplItem.lit e :: out)
        | none =>
          if c.isAlpha then none
          else (parseTemplateF fuel rest2).map
            (fun out => TmplItem.lit '\\' :: TmplItem.lit c :: out)
  | fuel + 1, c :: rest => (parseTemplateF fuel rest).map (fun out => TmplItem.lit c :: out)

/-- Parse a replacement template (fuel instantiated to its length). -/
def parseTemplate (l : List Char) : Option (List TmplItem) := parseTemplateF l.length l

/-- Expand a parsed template at a match: literals stand for themselves and
`\g<0>` for the matched text `m`. -/
def expandTmpl (m : List Char) : List TmplItem → List Char
  | [] => []
  | TmplItem.lit c :: rest => c :: expandTmpl m rest
  | TmplItem.group0 :: rest => m ++ expandTmpl m rest

/-- One `re.sub` pass for a non-empty token with the parsed template `rep`:
scan left to right, replace each match by the template expanded at the matched
text, and resume after it.  The fuel argument (`≥` remaining length) only
forces termination; a match always consumes at least one character. -/
def subNE (t : List Char) (rep : List TmplItem) : Nat → Option Char → List Char → List Char
  | 0, _, rest => rest
  | _ + 1, _, [] => []
  | fuel + 1, prev, c :: rs =>
    if matchAt t prev (c :: rs) then
      expandTmpl ((c :: rs).take t.length) rep ++
        subNE t rep fuel ((c :: rs).take t.length).getLast? ((c :: rs).drop t.length)
    else
      c :: subNE t rep fuel (some c) rs

/-- One `re.sub` pass for the empty token (the pattern collapses to `\b`):
insert the template, expanded at the empty match, at every word boundary. -/
def subEmpty (rep : List TmplItem) : Option Char → List Char → List Char
  | prev, [] => if boundaryB prev none then expandTmpl [] rep else []
  | prev, c :: rs =>
    (if boundaryB prev (some c) then expandTmpl [] rep else []) ++ (c :: subEmpty rep (some c) rs)

/-- One iteration of the `highlight_tokens` loop: parse the replacement
template `f"**{token}**"` (this happens before any matching, so a bad template
fails even without a match, as in `re.sub`), then substitute the token. -/
def subToken (token : String) (text : List Char) : Option (List Char) :=
  match parseTemplate ('*' :: '*' :: (token.data ++ ['*', '*'])) with
  | none => none
  | some rep =>
    some (if token.data.isEmpty then subEmpty rep none text
          else subNE token.data rep text.length none text)

/-- Ordering used by `sorted(important_tokens, key=len, reverse=True)`. -/
def lenGe (a b : String) : Prop := b.length ≤ a.length

instance : DecidableRel lenGe := fun a b => inferInstanceAs (Decidable (b.length ≤ a.length))

instance : IsTotal String lenGe := ⟨fun a b => le_total b.length a.length⟩

instance : IsTrans String lenGe := ⟨fun _ _ _ h1 h2 => le_trans h2 h1⟩

/-- Python `sorted(tokens, key=len, reverse=True)`: stable descending by length. -/
def sortLenDesc (tokens : List String) : List String := List.insertionSort lenGe tokens

/-- The `highlight_tokens` loop over the sorted tokens; `none` models the
`re.error` a bad replacement template raises, which aborts the loop. -/
def highlightLoop : List String → List Char → Option (List Char)
  | [], acc => some acc
  | tok :: rest, acc =>
    match subToken tok acc with
    | none => none
    | some acc2 => highlightLoop rest acc2

/-- `highlight_tokens(text, important_tokens)` (source lines 95-108); `none`
models the `re.error` raised when some token's replacement template is
invalid (a backslash followed by a digit or an unknown ASCII letter). -/
def highlight_tokens (text : String) (important_tokens : List String) : Option String :=
  (highlightLoop (sortLenDesc important_tokens) text.data).map String.mk

/-- The dict `analyze_tweet` returns (source lines 115-121). -/
structure AnalysisResult where
  original_text : String
  important_tokens : List String
  highlighted_text : String
  language : String
  num_important_tokens : Nat
deriving DecidableEq

/-- `analyze_tweet(text, language)` (source lines 110-121); the default
threshold `0.95` of `get_important_tokens` is used.  The `getD ""` default is
unreachable: the selected tokens never contain a backslash, so highlighting
them never fails (`highlight_selected_isSome` below). -/
def analyze_tweet (rng : Nat → ℚ) (text : String) (language : String) :
    Except KeyError AnalysisResult :=
  match get_important_tokens rng text language (19/20) with
  | Except.error e => Except.error e
  | Except.ok toks =>
    Except.ok { original_text := text, important_tokens := toks,
                highlighted_text := (highlight_tokens text toks).getD "",
                language := language, num_important_tokens := toks.length }

end SexismAnalyzer

namespace SexismAnalyzer

/-! ## Helper lemmas about the selection loop -/

lemma selectLoop_length (threshold total : ℚ) :
    ∀ (l : List (String × ℚ)) (cum : ℚ) (cnt : Nat), cnt < 10 →
      (selectLoop threshold total cum cnt l).length ≤ 10 - cnt := by
  intro l
  induction l with
  | nil => intro cum cnt h; simp [selectLoop]
  | cons p rest ih =>
    intro cum cnt h
    obtain ⟨tok, s⟩ := p
    rw [selectLoop]
    set cum2 := cum + (if 0 < total then s / total else 0) with hcum2
    by_cases hstop : threshold ≤ cum2 ∨ 10 ≤ cnt + 1
    · rw [if_pos hstop]
      simp only [List.length_singleton]
      omega
    · rw [if_neg hstop]
      rw [not_or] at hstop
      have hcnt : cnt + 1 < 10 := by omega
      have := ih cum2 (cnt + 1) hcnt
      simp only [List.length_cons]
      omega

lemma selectTokens_length (rng : Nat → ℚ) (text : String) (lt : LangTokens)
    (threshold : ℚ) : (selectTokens rng text lt threshold).length ≤ 10 := by
  simp only [selectTokens]
  have := selectLoop_length threshold
    ((sortDesc (token_scores rng (lowerStr text) lt).1).map Prod.snd).sum
    (sortDesc (token_scores rng (lowerStr text) lt).1) 0 0 (by omega)
  omega

end SexismAnalyzer

namespace SexismAnalyzer

/-! ## C1, C4, C8 -/

/-- C1: for every text, threshold and raw-draw stream, calling
`get_important_tokens` or `analyze_tweet` with a language that is not a key of
the keyword table fails with the `KeyError` carrying that language, and the
error propagates out of `analyze_tweet` unrecovered. -/
theorem c1_unsupported_language (rng : Nat → ℚ) (text language : String)
    (threshold : ℚ) (h1 : language ≠ "en") (h2 : language ≠ "es") :
    get_important_tokens rng text language threshold = Except.error ⟨language⟩ ∧
    analyze_tweet rng text language = Except.error ⟨language⟩ := by
  have htab : important_tokens_table language = none := by
    unfold important_tokens_table
    rw [if_neg h1, if_neg h2]
  constructor
  · unfold get_important_tokens
    rw [htab]
  · unfold analyze_tweet get_important_tokens
    rw [htab]

/-- Witness for C1 at the concrete unsupported language `"fr"`. -/
theorem c1_witness :
    ("fr" ≠ "en" ∧ "fr" ≠ "es") ∧
    get_important_tokens (fun _ => 0) "hello" "fr" (19/20) = Except.error ⟨"fr"⟩ ∧
    analyze_tweet (fun _ => 0) "hello" "fr" = Except.error ⟨"fr"⟩ :=
  ⟨⟨by decide, by decide⟩,
    c1_unsupported_language (fun _ => 0) "hello" "fr" (19/20) (by decide) (by decide)⟩

/-- C4: for every raw-draw stream, text, keyword table, threshold and language,
the selected token sequence (and hence the `important_tokens` field of
`analyze_tweet`, measured through `num_important_tokens`-free accessors) has
length at most 10. -/
theorem c4_at_most_ten (rng : Nat → ℚ) (text : String) (lt : LangTokens)
    (language : String) (threshold : ℚ) :
    (selectTokens rng text lt threshold).length ≤ 10 ∧
    ((analyze_tweet rng text language).toOption.elim 0
      (fun r => r.important_tokens.length)) ≤ 10 := by
  refine ⟨selectTokens_length rng text lt threshold, ?_⟩
  unfold analyze_tweet get_important_tokens
  cases htab : important_tokens_table language with
  | none => simp [Except.toOption]
  | some lt2 =>
    simp [Except.toOption, Option.elim]
    exact selectTokens_length rng text lt2 (19/20)

/-- C8: `get_important_tokens("", "en")` succeeds and returns the empty
sequence, for every raw-draw stream and threshold: nothing matches the empty
text and the fallback scans zero words. -/
theorem c8_empty_text (rng : Nat → ℚ) (threshold : ℚ) :
    get_important_tokens rng "" "en" threshold = Except.ok [] := rfl

end SexismAnalyzer

namespace SexismAnalyzer

/-! ## C7: replacement templates and highlighting lengths -/

lemma parseTemplateF_no_backslash :
    ∀ (l : List Char) (fuel : Nat), '\\' ∉ l → l.length ≤ fuel →
      parseTemplateF fuel l = some (l.map TmplItem.lit) := by
  intro l
  induction l with
  | nil =>
    intro fuel _ _
    cases fuel with
    | zero => rfl
    | succ n => rfl
  | cons c rest ih =>
    intro fuel hnb hfuel
    have hc : ¬(c = '\\') := fun h => hnb (by rw [← h]; exact List.mem_cons_self _ _)
    have hrest : '\\' ∉ rest := fun h => hnb (List.mem_cons_of_mem _ h)
    cases fuel with
    | zero => simp at hfuel
    | succ n =>
      have hlen : rest.length ≤ n := by
        simp only [List.length_cons] at hfuel
        omega
      rw [parseTemplateF, ih n hrest hlen]
      rfl
      exact hc

lemma parseTemplate_no_backslash (l : List Char) (h : '\\' ∉ l) :
    parseTemplate l = some (l.map TmplItem.lit) :=
  parseTemplateF_no_backslash l l.length h le_rfl

lemma expandTmpl_map_lit (m : List Char) :
    ∀ l : List Char, expandTmpl m (l.map TmplItem.lit) = l := by
  intro l
  induction l with
  | nil => rfl
  | cons c rest ih =>
    simp only [List.map_cons, expandTmpl]
    rw [ih]

lemma subEmpty_length (rep : List TmplItem) : ∀ (l : List Char) (prev : Option Char),
    l.length ≤ (subEmpty rep prev l).length := by
  intro l
  induction l with
  | nil => intro prev; simp
  | cons c rs ih =>
    intro prev
    simp only [subEmpty, List.length_append, List.length_cons]
    have := ih (some c)
    omega

lemma subNE_length (t : List Char) (rep : List TmplItem)
    (hrep : ∀ m : List Char, t.length ≤ (expandTmpl m rep).length) :
    ∀ (fuel : Nat) (prev : Option Char) (rest : List Char),
      rest.length ≤ (subNE t rep fuel prev rest).length := by
  intro fuel
  induction fuel with
  | zero => intro prev rest; simp [subNE]
  | succ n ih =>
    intro prev rest
    match rest with
    | [] => simp [subNE]
    | c :: rs =>
      rw [subNE]
      split
      · have h1 := ih ((c :: rs).take t.length).getLast? ((c :: rs).drop t.length)
        have h2 := hrep ((c :: rs).take t.length)
        simp only [List.length_append, List.length_drop] at *
        omega
      · simp only [List.length_cons]
        have := ih (some c) rs
        omega

lemma subToken_no_backslash (tok : String) (acc : List Char) (h : '\\' ∉ tok.data) :
    ∃ next, subToken tok acc = some next ∧ acc.length ≤ next.length := by
  have htl : '\\' ∉ ('*' :: '*' :: (tok.data ++ ['*', '*'])) := by
    intro hm
    rcases List.mem_cons.mp hm with h1 | hm2
    · exact absurd h1 (by decide)
    rcases List.mem_cons.mp hm2 with h1 | hm3
    · exact absurd h1 (by decide)
    rcases List.mem_append.mp hm3 with h1 | h1
    · exact h h1
    rcases List.mem_cons.mp h1 with h2 | h2
    · exact absurd h2 (by decide)
    · exact absurd (List.mem_singleton.mp h2) (by decide)
  simp only [subToken, parseTemplate_no_backslash _ htl]
  refine ⟨_, rfl, ?_⟩
  split
  · exact subEmpty_length _ acc none
  · apply subNE_length tok.data _ ?_ acc.length none acc
    intro m
    rw [expandTmpl_map_lit]
    simp only [List.length_cons, List.length_append, List.length_singleton]
    have : tok.length = tok.data.length := rfl
    omega

lemma highlightLoop_no_backslash :
    ∀ (toks : List String) (acc : List Char),
      (∀ tok ∈ toks, '\\' ∉ tok.data) →
      ∃ out, highlightLoop toks acc = some out ∧ acc.length ≤ out.length := by
  intro toks
  induction toks with
  | nil => intro acc _; exact ⟨acc, rfl, le_rfl⟩
  | cons tok rest ih =>
    intro acc hnb
    obtain ⟨next, hnext, hlen⟩ :=
      subToken_no_backslash tok acc (hnb tok (List.mem_cons_self _ _))
    obtain ⟨out, hout, hlen2⟩ := ih next (fun s hs => hnb s (List.mem_cons_of_mem _ hs))
    refine ⟨out, ?_, le_trans hlen hlen2⟩
    rw [highlightLoop, hnext]
    exact hout

/-- C7 counterexample: `re.sub` processes the replacement `f"**{token}**"` as
an escape template, so a token made of five `\n` escapes (ten characters)
matches ten characters of the text but is replaced by `**` + five newlines +
`**` (nine characters), shrinking the eleven-character text to ten; and a
token `\1` is an invalid group reference and makes the call fail outright. -/
theorem c7_counterexample :
    ((highlight_tokens "a\\n\\n\\n\\n\\n" ["\\n\\n\\n\\n\\n"]).map String.length = some 10 ∧
      ("a\\n\\n\\n\\n\\n" : String).length = 11) ∧
    highlight_tokens "a" ["\\1"] = none := by
  refine ⟨⟨?_, ?_⟩, ?_⟩ <;> decide

/-- C7 amended: for every text and every token list whose tokens contain no
backslash (so the replacement template is taken literally), `highlight_tokens`
succeeds and returns a string at least as long as the input text: the
emphasis markers only add characters. -/
theorem c7_highlight_no_shrink (text : String) (important_tokens : List String)
    (hnb : ∀ tok ∈ important_tokens, '\\' ∉ tok.data) :
    ∃ out, highlight_tokens text important_tokens = some out ∧
      text.length ≤ out.length := by
  have hnb2 : ∀ tok ∈ sortLenDesc important_tokens, '\\' ∉ tok.data := fun tok htok =>
    hnb tok ((List.perm_insertionSort lenGe important_tokens).subset htok)
  obtain ⟨out, hout, hlen⟩ :=
    highlightLoop_no_backslash (sortLenDesc important_tokens) text.data hnb2
  refine ⟨String.mk out, ?_, hlen⟩
  rw [highlight_tokens, hout]
  rfl

/-- Witness for C7 amended on the backslash-free token `"kitchen"`. -/
theorem c7_witness :
    (∀ tok ∈ ["kitchen"], '\\' ∉ tok.data) ∧
    ∃ out, highlight_tokens "She works in the kitchen" ["kitchen"] = some out ∧
      ("She works in the kitchen" : String).length ≤ out.length :=
  ⟨by decide, c7_highlight_no_shrink "She works in the kitchen" ["kitchen"] (by decide)⟩

end SexismAnalyzer

namespace SexismAnalyzer

/-! ## Helper lemmas about the score dictionary and selection (C9, C5, C10) -/

lemma toLower_not_upper (c : Char) : (Char.toLower c).isUpper = false := by
  rw [Char.toLower]
  by_cases h : c.toNat ≥ 65 ∧ c.toNat ≤ 90
  · rw [if_pos h]
    have hv : (Char.toNat c + 32).isValidChar := by
      constructor
      omega
    rw [Char.ofNat, dif_pos hv]
    simp only [Char.isUpper, Char.ofNatAux, UInt32.le_def, BitVec.le_def,
      BitVec.toNat_ofNatLt, UInt32.toBitVec_ofNat, BitVec.toNat_ofNat]
    norm_num
    omega
  · rw [if_neg h]
    simp only [Char.isUpper]
    rw [Bool.and_eq_false_iff]
    simp only [decide_eq_false_iff_not, UInt32.le_def, BitVec.le_def,
      UInt32.toBitVec_ofNat, BitVec.toNat_ofNat]
    norm_num
    have : c.toNat = c.val.toBitVec.toNat := rfl
    omega

lemma mem_dictInsert_keys (P : String → Bool) (key : String) (v : ℚ) :
    ∀ (l : List (String × ℚ)), P key = true → (∀ q ∈ l, P q.1 = true) →
      ∀ q ∈ dictInsert key v l, P q.1 = true := by
  intro l
  induction l with
  | nil =>
    intro hk _ q hq
    simp only [dictInsert, List.mem_singleton] at hq
    subst hq
    exact hk
  | cons p rest ih =>
    intro hk hl q hq
    obtain ⟨k2, v2⟩ := p
    rw [dictInsert] at hq
    split at hq
    · rcases List.mem_cons.mp hq with h | h
      · subst h
        exact hl (k2, v2) (List.mem_cons_self _ _)
      · exact hl q (List.mem_cons_of_mem _ h)
    · rcases List.mem_cons.mp hq with h | h
      · subst h
        exact hl (k2, v2) (List.mem_cons_self _ _)
      · exact ih hk (fun q hq => hl q (List.mem_cons_of_mem _ hq)) q h

lemma scorePass_keys (rng : Nat → ℚ) (lo hi : ℚ) (checkNew : Bool) (tl : String)
    (P : String → Bool) :
    ∀ (toks : List String) (st : List (String × ℚ) × Nat),
      (∀ tok ∈ toks, P tok = true) → (∀ q ∈ st.1, P q.1 = true) →
      ∀ q ∈ (scorePass rng lo hi checkNew tl toks st).1, P q.1 = true := by
  intro toks
  induction toks with
  | nil => intro st _ hst; exact hst
  | cons tok rest ih =>
    intro st htoks hst
    obtain ⟨scores, k⟩ := st
    rw [scorePass]
    split
    · exact ih _ (fun t ht => htoks t (List.mem_cons_of_mem _ ht))
        (mem_dictInsert_keys P tok _ scores (htoks tok (List.mem_cons_self _ _)) hst)
    · exact ih _ (fun t ht => htoks t (List.mem_cons_of_mem _ ht)) hst

lemma fallbackPass_keys (rng : Nat → ℚ) (P : String → Bool) :
    ∀ (ws : List String) (st : List (String × ℚ) × Nat),
      (∀ w ∈ ws, P (cleanWord w) = true) → (∀ q ∈ st.1, P q.1 = true) →
      ∀ q ∈ (fallbackPass rng ws st).1, P q.1 = true := by
  intro ws
  induction ws with
  | nil => intro st _ hst; exact hst
  | cons w rest ih =>
    intro st hws hst
    obtain ⟨scores, k⟩ := st
    rw [fallbackPass]
    split
    · exact ih _ (fun t ht => hws t (List.mem_cons_of_mem _ ht))
        (mem_dictInsert_keys P (cleanWord w) _ scores (hws w (List.mem_cons_self _ _)) hst)
    · exact ih _ (fun t ht => hws t (List.mem_cons_of_mem _ ht)) hst

lemma token_scores_keys (rng : Nat → ℚ) (tl : String) (lt : LangTokens)
    (P : String → Bool)
    (hhigh : ∀ tok ∈ lt.high_importance, P tok = true)
    (hmed : ∀ tok ∈ lt.medium_importance, P tok = true)
    (hsex : ∀ tok ∈ lt.sexist_indicators, P tok = true)
    (hfall : ∀ w ∈ (splitWords tl).take 5, P (cleanWord w) = true) :
    ∀ q ∈ (token_scores rng tl lt).1, P q.1 = true := by
  have h1 : ∀ q ∈ (stageHigh rng tl lt).1, P q.1 = true :=
    scorePass_keys rng _ _ _ _ P _ _ hhigh (by simp)
  have h2 : ∀ q ∈ (stageMedium rng tl lt).1, P q.1 = true :=
    scorePass_keys rng _ _ _ _ P _ _ hmed h1
  have h3 : ∀ q ∈ (stageSexist rng tl lt).1, P q.1 = true :=
    scorePass_keys rng _ _ _ _ P _ _ hsex h2
  intro q hq
  rw [token_scores] at hq
  split at hq
  · exact fallbackPass_keys rng P _ _ hfall h3 q hq
  · exact h3 q hq

lemma selectLoop_sublist (threshold total : ℚ) :
    ∀ (l : List (String × ℚ)) (cum : ℚ) (cnt : Nat),
      (selectLoop threshold total cum cnt l).Sublist (l.map Prod.fst) := by
  intro l
  induction l with
  | nil => intro cum cnt; simp [selectLoop]
  | cons p rest ih =>
    intro cum cnt
    obtain ⟨tok, s⟩ := p
    rw [selectLoop]
    set cum2 := cum + (if 0 < total then s / total else 0) with hcum2
    by_cases hstop : threshold ≤ cum2 ∨ 10 ≤ cnt + 1
    · rw [if_pos hstop]
      simp only [List.map_cons]
      exact (List.nil_sublist _).cons₂ tok
    · rw [if_neg hstop]
      simp only [List.map_cons]
      exact (ih _ _).cons₂ tok

lemma mem_selectTokens (rng : Nat → ℚ) (text : String) (lt : LangTokens)
    (threshold : ℚ) (tok : String) (h : tok ∈ selectTokens rng text lt threshold) :
    tok ∈ (token_scores rng (lowerStr text) lt).1.map Prod.fst := by
  simp only [selectTokens] at h
  have hsub := selectLoop_sublist threshold
    ((sortDesc (token_scores rng (lowerStr text) lt).1).map Prod.snd).sum
    (sortDesc (token_scores rng (lowerStr text) lt).1) 0 0
  have h1 : tok ∈ (sortDesc (token_scores rng (lowerStr text) lt).1).map Prod.fst :=
    hsub.mem h
  have hperm : (sortDesc (token_scores rng (lowerStr text) lt).1).Perm
      (token_scores rng (lowerStr text) lt).1 :=
    List.perm_insertionSort scoreGe _
  exact (hperm.map Prod.fst).mem_iff.mp h1

lemma wordsAux_chars : ∀ (l cur : List Char) (w : String), w ∈ wordsAux cur l →
    ∀ d ∈ w.data, d ∈ cur ∨ d ∈ l := by
  intro l
  induction l with
  | nil =>
    intro cur w hw d hd
    rw [wordsAux] at hw
    split at hw
    · simp at hw
    · simp only [List.mem_singleton] at hw
      subst hw
      exact Or.inl (List.mem_reverse.mp hd)
  | cons c rest ih =>
    intro cur w hw d hd
    rw [wordsAux] at hw
    split at hw
    · rw [List.mem_append] at hw
      rcases hw with hw | hw
      · split at hw
        · simp at hw
        · simp only [List.mem_singleton] at hw
          subst hw
          exact Or.inl (List.mem_reverse.mp hd)
      · rcases ih [] w hw d hd with h | h
        · simp at h
        · exact Or.inr (List.mem_cons_of_mem _ h)
    · rcases ih (c :: cur) w hw d hd with h | h
      · rcases List.mem_cons.mp h with h1 | h1
        · subst h1
          exact Or.inr (List.mem_cons_self _ _)
        · exact Or.inl h1
      · exact Or.inr (List.mem_cons_of_mem _ h)

lemma table_cases (language : String) (lt : LangTokens)
    (h : important_tokens_table language = some lt) : lt = enTokens ∨ lt = esTokens := by
  unfold important_tokens_table at h
  split_ifs at h
  · exact Or.inl (Option.some_injective _ h).symm
  · exact Or.inr (Option.some_injective _ h).symm

/-- C9: for every raw-draw stream, text, language and threshold, every token
returned by `get_important_tokens` contains no uppercase character: keyword
matches return the lowercase table keyword itself and fallback tokens are
cleaned words of the lowercased text. -/
theorem c9_lowercase_result (rng : Nat → ℚ) (text language : String) (threshold : ℚ) :
    (((get_important_tokens rng text language threshold).toOption.getD []).all
      (fun tok => tok.data.all (fun c => !c.isUpper))) = true := by
  rw [List.all_eq_true]
  intro tok htok
  rw [List.all_eq_true]
  intro c hc
  unfold get_important_tokens at htok
  cases htab : important_tokens_table language with
  | none => rw [htab] at htok; simp [Except.toOption] at htok
  | some lt =>
    rw [htab] at htok
    simp only [Except.toOption, Option.getD_some] at htok
    have hmem := mem_selectTokens rng text lt threshold tok htok
    rw [List.mem_map] at hmem
    obtain ⟨q, hq, hq2⟩ := hmem
    have hfall : ∀ w ∈ (splitWords (lowerStr text)).take 5,
        (fun tok => tok.data.all (fun c => !c.isUpper)) (cleanWord w) = true := by
      intro w hw
      rw [List.all_eq_true]
      intro d hd
      have hd2 : d ∈ w.data := by
        simp only [cleanWord] at hd
        exact List.mem_of_mem_filter hd
      have hw2 : w ∈ splitWords (lowerStr text) := List.mem_of_mem_take hw
      have hd3 : d ∈ (lowerStr text).data :=
        (wordsAux_chars (lowerStr text).data [] w hw2 d hd2).resolve_left (by simp)
      simp only [lowerStr] at hd3
      rw [List.mem_map] at hd3
      obtain ⟨e, _, he2⟩ := hd3
      rw [← he2]
      simp [toLower_not_upper]
    have hhigh : ∀ tok ∈ lt.high_importance,
        (fun tok => tok.data.all (fun c => !c.isUpper)) tok = true := by
      rcases table_cases language lt htab with h | h <;> subst h <;> decide
    have hmed : ∀ tok ∈ lt.medium_importance,
        (fun tok => tok.data.all (fun c => !c.isUpper)) tok = true := by
      rcases table_cases language lt htab with h | h <;> subst h <;> decide
    have hsex : ∀ tok ∈ lt.sexist_indicators,
        (fun tok => tok.data.all (fun c => !c.isUpper)) tok = true := by
      rcases table_cases language lt htab with h | h <;> subst h <;> decide
    have hP := token_scores_keys rng (lowerStr text) lt
      (fun tok => tok.data.all (fun c => !c.isUpper)) hhigh hmed hsex hfall q hq
    simp only [] at hP
    rw [hq2] at hP
    rw [List.all_eq_true] at hP
    exact hP c hc

end SexismAnalyzer

namespace SexismAnalyzer

/-! ## Helper lemmas for C5 -/

lemma mem_keys_dictInsert (a key : String) (v : ℚ) :
    ∀ l : List (String × ℚ), a ∈ (dictInsert key v l).map Prod.fst →
      a = key ∨ a ∈ l.map Prod.fst := by
  intro l
  induction l with
  | nil =>
    intro h
    simp [dictInsert] at h
    exact Or.inl h
  | cons p rest ih =>
    intro h
    obtain ⟨k2, v2⟩ := p
    rw [dictInsert] at h
    split at h
    · exact Or.inr h
    · simp only [List.map_cons, List.mem_cons] at h
      rcases h with h | h
      · exact Or.inr (by simp [h])
      · rcases ih h with h1 | h1
        · exact Or.inl h1
        · exact Or.inr (by simp [h1])

lemma dictInsert_keys_nodup (key : String) (v : ℚ) :
    ∀ l : List (String × ℚ), (l.map Prod.fst).Nodup →
      ((dictInsert key v l).map Prod.fst).Nodup := by
  intro l
  induction l with
  | nil => intro _; simp [dictInsert]
  | cons p rest ih =>
    intro h
    obtain ⟨k2, v2⟩ := p
    simp only [List.map_cons, List.nodup_cons] at h
    rw [dictInsert]
    split
    · simp only [List.map_cons, List.nodup_cons]
      exact h
    · next hne =>
      simp only [List.map_cons, List.nodup_cons]
      refine ⟨?_, ih h.2⟩
      intro hmem
      rcases mem_keys_dictInsert k2 key v rest hmem with h1 | h1
      · exact hne h1
      · exact h.1 h1

lemma scorePass_keys_nodup (rng : Nat → ℚ) (lo hi : ℚ) (checkNew : Bool) (tl : String) :
    ∀ (toks : List String) (st : List (String × ℚ) × Nat), (st.1.map Prod.fst).Nodup →
      ((scorePass rng lo hi checkNew tl toks st).1.map Prod.fst).Nodup := by
  intro toks
  induction toks with
  | nil => intro st h; exact h
  | cons tok rest ih =>
    intro st h
    obtain ⟨scores, k⟩ := st
    rw [scorePass]
    split
    · exact ih _ (dictInsert_keys_nodup tok _ scores h)
    · exact ih _ h

lemma fallbackPass_keys_nodup (rng : Nat → ℚ) :
    ∀ (ws : List String) (st : List (String × ℚ) × Nat), (st.1.map Prod.fst).Nodup →
      ((fallbackPass rng ws st).1.map Prod.fst).Nodup := by
  intro ws
  induction ws with
  | nil => intro st h; exact h
  | cons w rest ih =>
    intro st h
    obtain ⟨scores, k⟩ := st
    rw [fallbackPass]
    split
    · exact ih _ (dictInsert_keys_nodup (cleanWord w) _ scores h)
    · exact ih _ h

lemma token_scores_keys_nodup (rng : Nat → ℚ) (tl : String) (lt : LangTokens) :
    ((token_scores rng tl lt).1.map Prod.fst).Nodup := by
  have h1 : ((stageHigh rng tl lt).1.map Prod.fst).Nodup :=
    scorePass_keys_nodup rng _ _ _ _ _ _ (by simp)
  have h2 : ((stageMedium rng tl lt).1.map Prod.fst).Nodup :=
    scorePass_keys_nodup rng _ _ _ _ _ _ h1
  have h3 : ((stageSexist rng tl lt).1.map Prod.fst).Nodup :=
    scorePass_keys_nodup rng _ _ _ _ _ _ h2
  rw [token_scores]
  split
  · exact fallbackPass_keys_nodup rng _ _ h3
  · exact h3

lemma lookup_dictInsert_ne (a key : String) (v : ℚ) (hne : a ≠ key) :
    ∀ l : List (String × ℚ), List.lookup a (dictInsert key v l) = List.lookup a l := by
  have hbeq : (a == key) = false := beq_eq_false_iff_ne.mpr hne
  intro l
  induction l with
  | nil => simp [dictInsert, List.lookup, hbeq]
  | cons p rest ih =>
    obtain ⟨k2, v2⟩ := p
    rw [dictInsert]
    split
    · next heq =>
      subst heq
      simp [List.lookup, hbeq]
    · simp only [List.lookup]
      rw [ih]

lemma scorePass_lookup_some (rng : Nat → ℚ) (lo hi : ℚ) (tl : String)
    (tok : String) (v : ℚ) :
    ∀ (toks : List String) (st : List (String × ℚ) × Nat),
      List.lookup tok st.1 = some v →
      List.lookup tok (scorePass rng lo hi true tl toks st).1 = some v := by
  intro toks
  induction toks with
  | nil => intro st h; exact h
  | cons t rest ih =>
    intro st h
    obtain ⟨scores, k⟩ := st
    rw [scorePass]
    split
    · next hcond =>
      simp only [Bool.not_true, Bool.false_or, Bool.and_eq_true,
        Option.isNone_iff_eq_none] at hcond
      have hne : tok ≠ t := by
        intro heq
        subst heq
        rw [h] at hcond
        exact Option.noConfusion hcond.2
      apply ih
      simp only []
      rw [lookup_dictInsert_ne tok t _ hne scores]
      exact h
    · exact ih _ h

/-- C5: for every raw-draw stream, text, keyword table, threshold and token:
the sequence returned by the selection contains no duplicates, and a token
already scored by the `high_importance` loop keeps exactly that entry through
the `medium_importance` and `sexist_indicators` loops (it is never rescored:
its stored score after all three loops is its `high_importance` score). -/
theorem c5_unique_scoring (rng : Nat → ℚ) (text : String) (lt : LangTokens)
    (threshold : ℚ) (tok : String) :
    (selectTokens rng text lt threshold).Nodup ∧
    List.lookup tok (stageSexist rng (lowerStr text) lt).1 =
      Option.or (List.lookup tok (stageHigh rng (lowerStr text) lt).1)
                (List.lookup tok (stageSexist rng (lowerStr text) lt).1) := by
  constructor
  · have hkeys := token_scores_keys_nodup rng (lowerStr text) lt
    have hperm := (List.perm_insertionSort scoreGe (token_scores rng (lowerStr text) lt).1).map
      Prod.fst
    have hnodup : ((sortDesc (token_scores rng (lowerStr text) lt).1).map Prod.fst).Nodup :=
      hperm.nodup_iff.mpr hkeys
    simp only [selectTokens]
    exact (selectLoop_sublist _ _ _ 0 0).nodup hnodup
  · cases hh : List.lookup tok (stageHigh rng (lowerStr text) lt).1 with
    | none => simp [Option.or]
    | some v =>
      have h2 : List.lookup tok (stageMedium rng (lowerStr text) lt).1 = some v := by
        rw [stageMedium]
        exact scorePass_lookup_some rng _ _ _ tok v _ _ hh
      have h3 : List.lookup tok (stageSexist rng (lowerStr text) lt).1 = some v := by
        rw [stageSexist]
        exact scorePass_lookup_some rng _ _ _ tok v _ _ h2
      rw [h3]
      simp [Option.or]

end SexismAnalyzer

namespace SexismAnalyzer

/-! ## C10: the first sorted token is always appended -/

lemma sortDesc_perm (l : List (String × ℚ)) : (sortDesc l).Perm l :=
  List.perm_insertionSort scoreGe l

lemma sortDesc_sorted (l : List (String × ℚ)) : List.Sorted scoreGe (sortDesc l) :=
  List.sorted_insertionSort scoreGe l

/-- C10: for every raw-draw stream, text, keyword table and threshold value
(including thresholds at or below 0 and above 1), as soon as at least one token
received a score the returned sequence is non-empty and its first element is a
token of maximal score: the loop appends the first sorted token before it
evaluates the stopping condition. -/
theorem c10_first_token_max (rng : Nat → ℚ) (text : String) (lt : LangTokens)
    (threshold : ℚ) (h : (token_scores rng (lowerStr text) lt).1 ≠ []) :
    selectTokens rng text lt threshold ≠ [] ∧
    ∃ s : ℚ,
      ((selectTokens rng text lt threshold).headD "", s) ∈
        (token_scores rng (lowerStr text) lt).1 ∧
      ∀ p ∈ (token_scores rng (lowerStr text) lt).1, p.2 ≤ s := by
  have hperm := sortDesc_perm (token_scores rng (lowerStr text) lt).1
  have hsorted := sortDesc_sorted (token_scores rng (lowerStr text) lt).1
  have hsne : sortDesc (token_scores rng (lowerStr text) lt).1 ≠ [] := by
    intro hnil
    rw [hnil] at hperm
    exact h hperm.symm.eq_nil
  obtain ⟨y, ys, hy⟩ := List.exists_cons_of_ne_nil hsne
  obtain ⟨tokv, sv⟩ := y
  have hhead : ∀ cum cnt, (selectLoop threshold
      ((sortDesc (token_scores rng (lowerStr text) lt).1).map Prod.snd).sum cum cnt
      (sortDesc (token_scores rng (lowerStr text) lt).1)).headD "" = tokv ∧
      selectLoop threshold
      ((sortDesc (token_scores rng (lowerStr text) lt).1).map Prod.snd).sum cum cnt
      (sortDesc (token_scores rng (lowerStr text) lt).1) ≠ [] := by
    intro cum cnt
    rw [hy, selectLoop]
    set cum2 := cum + _ with hcum2
    by_cases hstop : threshold ≤ cum2 ∨ 10 ≤ cnt + 1
    · rw [if_pos hstop]
      simp
    · rw [if_neg hstop]
      simp
  constructor
  · simp only [selectTokens]
    exact (hhead 0 0).2
  · refine ⟨sv, ?_, ?_⟩
    · have hm : ((tokv : String), sv) ∈ sortDesc (token_scores rng (lowerStr text) lt).1 := by
        rw [hy]
        exact List.mem_cons_self _ _
      have := hperm.subset hm
      simp only [selectTokens]
      rw [(hhead 0 0).1]
      exact this
    · intro p hp
      have hp2 : p ∈ sortDesc (token_scores rng (lowerStr text) lt).1 :=
        hperm.symm.subset hp
      rw [hy] at hp2
      rcases List.mem_cons.mp hp2 with h1 | h1
      · rw [h1]
      · rw [hy] at hsorted
        exact List.rel_of_sorted_cons hsorted p h1

/-- Witness for C10 on the kitchen scenario text with the constant raw draw 1/2. -/
theorem c10_witness :
    (token_scores (fun _ => (1:ℚ)/2)
        (lowerStr "You should be in the kitchen, not working") enTokens).1 ≠ [] ∧
    (selectTokens (fun _ => (1:ℚ)/2) "You should be in the kitchen, not working" enTokens
        (19/20) ≠ [] ∧
      ∃ s : ℚ,
        ((selectTokens (fun _ => (1:ℚ)/2) "You should be in the kitchen, not working" enTokens
            (19/20)).headD "", s) ∈
          (token_scores (fun _ => (1:ℚ)/2)
            (lowerStr "You should be in the kitchen, not working") enTokens).1 ∧
        ∀ p ∈ (token_scores (fun _ => (1:ℚ)/2)
            (lowerStr "You should be in the kitchen, not working") enTokens).1, p.2 ≤ s) :=
  ⟨by decide, c10_first_token_max (fun _ => (1:ℚ)/2)
    "You should be in the kitchen, not working" enTokens (19/20) (by decide)⟩

end SexismAnalyzer

namespace SexismAnalyzer

/-! ## C6: the kitchen scenario -/

lemma token_scores_kitchen (rng : Nat → ℚ) :
    token_scores rng (lowerStr "You should be in the kitchen, not working") enTokens =
      ([("kitchen", uniform rng 0 (7/10) (19/20))], 1) := rfl

lemma get_en (rng : Nat → ℚ) (text : String) (threshold : ℚ) :
    get_important_tokens rng text "en" threshold =
      Except.ok (selectTokens rng text enTokens threshold) := rfl

/-- C6: for every valid raw-draw stream, the call
`get_important_tokens("You should be in the kitchen, not working", "en")` with
the default threshold returns a sequence containing `"kitchen"` (in fact
exactly `["kitchen"]`), and the score assigned to `"kitchen"` lies in
`[0.7, 0.95]`. -/
theorem c6_kitchen_scenario (rng : Nat → ℚ) (hrng : ∀ k, 0 ≤ rng k ∧ rng k < 1) :
    (∃ l, get_important_tokens rng "You should be in the kitchen, not working" "en" (19/20) =
        Except.ok l ∧ "kitchen" ∈ l) ∧
    ∃ s : ℚ, List.lookup "kitchen"
        (token_scores rng (lowerStr "You should be in the kitchen, not working") enTokens).1 =
        some s ∧ 7/10 ≤ s ∧ s ≤ 19/20 := by
  have hsel : selectTokens rng "You should be in the kitchen, not working" enTokens (19/20) =
      ["kitchen"] := by
    simp only [selectTokens, token_scores_kitchen]
    simp only [selectLoop]
    exact ite_self _
  have hu := hrng 0
  constructor
  · refine ⟨["kitchen"], ?_, by simp⟩
    rw [get_en, hsel]
  · refine ⟨uniform rng 0 (7/10) (19/20), ?_, ?_, ?_⟩
    · rw [token_scores_kitchen]
      simp [List.lookup]
    · unfold uniform
      nlinarith [hu.1, hu.2]
    · unfold uniform
      nlinarith [hu.1, hu.2]

/-- Witness for C6 with the constant raw draw 1/2. -/
theorem c6_witness :
    (∃ l, get_important_tokens (fun _ => (1:ℚ)/2)
        "You should be in the kitchen, not working" "en" (19/20) =
        Except.ok l ∧ "kitchen" ∈ l) ∧
    ∃ s : ℚ, List.lookup "kitchen"
        (token_scores (fun _ => (1:ℚ)/2)
          (lowerStr "You should be in the kitchen, not working") enTokens).1 =
        some s ∧ 7/10 ≤ s ∧ s ≤ 19/20 :=
  c6_kitchen_scenario (fun _ => (1:ℚ)/2) (fun _ => ⟨by norm_num, by norm_num⟩)

end SexismAnalyzer

namespace SexismAnalyzer

/-! ## C2: the replacement spells the token, not the matched occurrence -/

lemma ciPre_append (t : List Char) : ∀ (w v : List Char),
    t.map Char.toLower = w.map Char.toLower → ciPre t (w ++ v) = true := by
  induction t with
  | nil => intro w v _; rfl
  | cons a as ih =>
    intro w v h
    match w with
    | [] => simp at h
    | b :: bs =>
      simp only [List.map_cons, List.cons.injEq] at h
      rw [List.cons_append, ciPre]
      rw [h.1, ih bs v h.2]
      simp

lemma isWordChar_of_alpha (c : Char) (h : c.isAlpha = true) : isWordChar c = true := by
  simp [isWordChar, Char.isAlphanum, h]

/-- Last character of the scanned prefix, or the incoming previous character
when the prefix is empty: the `prev` with which a scan resumes. -/
def lastOpt : Option Char → List Char → Option Char
  | prev, [] => prev
  | _, c :: cs => lastOpt (some c) cs

lemma lastOpt_eq : ∀ (l : List Char) (prev : Option Char),
    lastOpt prev l = l.getLast?.or prev := by
  intro l
  induction l with
  | nil => intro prev; rfl
  | cons c cs ih =>
    intro prev
    rw [lastOpt, ih (some c)]
    cases cs with
    | nil => rfl
    | cons c2 cs2 =>
      rw [List.getLast?_cons_cons]
      obtain ⟨y, hy⟩ : ∃ y, (c2 :: cs2).getLast? = some y :=
        ⟨_, List.getLast?_eq_getLast _ (by simp)⟩
      rw [hy]
      rfl

/-- Does the `re.sub` scan of the `\b token \b` pattern find no match at any
position inside the prefix (second list), looking ahead into the remainder
(third list)? -/
def scanNoMatch (t : List Char) : Option Char → List Char → List Char → Bool
  | _, [], _ => true
  | prev, c :: cs, rest => !matchAt t prev (c :: (cs ++ rest)) && scanNoMatch t (some c) cs rest

lemma subNE_fuel (t : List Char) (rep : List TmplItem) (htne : t ≠ []) :
    ∀ (fuel1 fuel2 : Nat) (prev : Option Char) (rest : List Char),
      rest.length ≤ fuel1 → rest.length ≤ fuel2 →
      subNE t rep fuel1 prev rest = subNE t rep fuel2 prev rest := by
  intro fuel1
  induction fuel1 with
  | zero =>
    intro fuel2 prev rest h1 h2
    have hnil : rest = [] := List.eq_nil_of_length_eq_zero (by omega)
    subst hnil
    cases fuel2 with
    | zero => rfl
    | succ m => rfl
  | succ n ih =>
    intro fuel2 prev rest h1 h2
    match rest with
    | [] =>
      cases fuel2 with
      | zero => rfl
      | succ m => rfl
    | c :: rs =>
      cases fuel2 with
      | zero => simp at h2
      | succ m =>
        have ht1 : 1 ≤ t.length := by
          cases t with
          | nil => exact absurd rfl htne
          | cons a as => simp
        simp only [subNE]
        by_cases hm : matchAt t prev (c :: rs) = true
        · rw [if_pos hm, if_pos hm]
          congr 1
          apply ih
          · simp only [List.length_drop, List.length_cons] at *
            omega
          · simp only [List.length_drop, List.length_cons] at *
            omega
        · rw [if_neg hm, if_neg hm]
          congr 1
          apply ih
          · simp only [List.length_cons] at *
            omega
          · simp only [List.length_cons] at *
            omega

lemma subNE_pass (t : List Char) (rep : List TmplItem) :
    ∀ (u rest : List Char) (prev : Option Char),
      scanNoMatch t prev u rest = true →
      subNE t rep (u ++ rest).length prev (u ++ rest) =
        u ++ subNE t rep rest.length (lastOpt prev u) rest := by
  intro u
  induction u with
  | nil => intro rest prev _; rfl
  | cons c cs ih =>
    intro rest prev hscan
    rw [scanNoMatch] at hscan
    simp only [Bool.and_eq_true, Bool.not_eq_true'] at hscan
    rw [List.cons_append, List.length_cons]
    rw [subNE, if_neg (by simp [hscan.1])]
    rw [ih rest (some c) hscan.2]
    rfl

/-- C2 counterexample: the occurrence `"Kitchen"` is replaced by the token's
own spelling `"kitchen"`; its original casing is not preserved. -/
theorem c2_counterexample :
    highlight_tokens "Kitchen" ["kitchen"] = some "**kitchen**" ∧
    highlight_tokens "Kitchen" ["kitchen"] ≠ some "**Kitchen**" := by
  constructor
  · decide
  · decide

/-- C2 amended: an occurrence of an alphabetic token embedded in arbitrary
surrounding text — `w` matching the token `t` up to ASCII case, sitting at
word boundaries, with no other match of the token's pattern in the prefix `u`
or the suffix `v` — is replaced by the token as spelled in the token list,
wrapped in the fixed marker pair; the occurrence's own casing is lost.  The
second conjunct records the same behaviour with two tokens and an occurrence
(`"Kitchen"`) whose casing differs from its token. -/
theorem c2_token_spelling (u w v t : String)
    (htne : t.data ≠ [])
    (ht_alpha : t.data.all Char.isAlpha = true)
    (hw_alpha : w.data.all Char.isAlpha = true)
    (hci : w.data.map Char.toLower = t.data.map Char.toLower)
    (hu_last : wordOpt u.data.getLast? = false)
    (hv_head : wordOpt v.data.head? = false)
    (hu_scan : scanNoMatch t.data none u.data (w.data ++ v.data) = true)
    (hv_scan : scanNoMatch t.data w.data.getLast? v.data [] = true) :
    highlight_tokens (u ++ w ++ v) [t] = some (u ++ "**" ++ t ++ "**" ++ v) ∧
    highlight_tokens "Kitchen girls" ["girls", "kitchen"] = some "**kitchen** **girls**" := by
  refine ⟨?_, by decide⟩
  have halpha_nb : '\\' ∉ t.data := by
    intro hm
    have := List.all_eq_true.mp ht_alpha _ hm
    exact absurd this (by decide)
  have hnb : '\\' ∉ ('*' :: '*' :: (t.data ++ ['*', '*'])) := by
    intro hm
    rcases List.mem_cons.mp hm with h1 | hm2
    · exact absurd h1 (by decide)
    rcases List.mem_cons.mp hm2 with h1 | hm3
    · exact absurd h1 (by decide)
    rcases List.mem_append.mp hm3 with h1 | h1
    · exact halpha_nb h1
    rcases List.mem_cons.mp h1 with h2 | h2
    · exact absurd h2 (by decide)
    · exact absurd (List.mem_singleton.mp h2) (by decide)
  have htname := parseTemplate_no_backslash _ hnb
  have hlen : t.data.length = w.data.length := by
    have := congrArg List.length hci
    simpa using this.symm
  obtain ⟨wc, wrest, hw⟩ : ∃ c r, w.data = c :: r := by
    match hwd : w.data with
    | [] =>
      rw [hwd] at hlen
      simp only [List.length_nil] at hlen
      exact absurd (List.eq_nil_of_length_eq_zero hlen) htne
    | c :: r => exact ⟨c, r, rfl⟩
  have hw_word : ∀ d ∈ w.data, isWordChar d = true := fun d hd =>
    isWordChar_of_alpha d (List.all_eq_true.mp hw_alpha d hd)
  have hlen2 : t.data.length = (wc :: wrest).length := by rw [hlen, hw]
  have hL : (u ++ w ++ v).data = u.data ++ (w.data ++ v.data) := by
    rw [String.data_append, String.data_append, List.append_assoc]
  have hiE : ¬(t.data.isEmpty = true) := fun h0 => htne (List.isEmpty_iff.mp h0)
  have hsub : subToken t (u ++ w ++ v).data =
      some (subNE t.data (('*' :: '*' :: (t.data ++ ['*', '*'])).map TmplItem.lit)
        ((u.data ++ (w.data ++ v.data)).length) none (u.data ++ (w.data ++ v.data))) := by
    simp only [subToken, htname, hL]
    rw [if_neg hiE]
  set rep := ('*' :: '*' :: (t.data ++ ['*', '*'])).map TmplItem.lit with hrepdef
  have hprev : wordOpt (lastOpt none u.data) = false := by
    rw [lastOpt_eq, Option.or_none]
    exact hu_last
  have hmatch : matchAt t.data (lastOpt none u.data) (w.data ++ v.data) = true := by
    rw [matchAt]
    have h1 : ciPre t.data (w.data ++ v.data) = true := ciPre_append t.data w.data v.data hci.symm
    have h2 : boundaryB (lastOpt none u.data) (w.data ++ v.data).head? = true := by
      rw [hw, List.cons_append, List.head?_cons]
      have hwcw : isWordChar wc = true := hw_word wc (by rw [hw]; exact List.mem_cons_self _ _)
      simp only [boundaryB, hprev]
      simp only [wordOpt, hwcw]
      rfl
    have h3 : boundaryB ((w.data ++ v.data).take t.data.length).getLast?
        ((w.data ++ v.data).drop t.data.length).head? = true := by
      rw [hlen, List.take_left, List.drop_left]
      obtain ⟨lw, hlw⟩ : ∃ d, w.data.getLast? = some d := by
        rw [hw]
        exact ⟨_, List.getLast?_eq_getLast _ (by simp)⟩
      have hlw_mem : lw ∈ w.data := by
        rw [hw] at hlw ⊢
        rw [List.getLast?_eq_getLast _ (by simp)] at hlw
        rw [← Option.some_inj.mp hlw]
        exact List.getLast_mem _
      rw [hlw]
      simp only [boundaryB, hv_head]
      simp only [wordOpt, hw_word lw hlw_mem]
      rfl
    rw [h1, h2, h3]
    rfl
  have hfire : subNE t.data rep (w.data ++ v.data).length (lastOpt none u.data) (w.data ++ v.data)
      = expandTmpl w.data rep ++ subNE t.data rep v.data.length w.data.getLast? v.data := by
    rw [hw, List.cons_append, List.length_cons]
    rw [subNE, if_pos (by rw [← List.cons_append, ← hw]; exact hmatch)]
    rw [← List.cons_append, ← hw, hlen, hw]
    rw [List.take_left, List.drop_left]
    congr 1
    apply subNE_fuel t.data rep htne
    · simp only [List.length_append]
      omega
    · exact le_rfl
  have hpassv : subNE t.data rep v.data.length w.data.getLast? v.data = v.data := by
    have hp := subNE_pass t.data rep v.data [] w.data.getLast? hv_scan
    rw [List.append_nil] at hp
    rw [show subNE t.data rep (List.length ([] : List Char)) (lastOpt w.data.getLast? v.data) [] =
        [] from rfl] at hp
    rw [List.append_nil] at hp
    exact hp
  have hexp : expandTmpl w.data rep = '*' :: '*' :: (t.data ++ ['*', '*']) := by
    rw [hrepdef, expandTmpl_map_lit]
  have hout : subNE t.data rep (u.data ++ (w.data ++ v.data)).length none
      (u.data ++ (w.data ++ v.data)) =
      u.data ++ (('*' :: '*' :: (t.data ++ ['*', '*'])) ++ v.data) := by
    rw [subNE_pass t.data rep u.data (w.data ++ v.data) none hu_scan]
    rw [hfire, hpassv, hexp]
  have hloop : highlightLoop [t] (u ++ w ++ v).data =
      some (u.data ++ (('*' :: '*' :: (t.data ++ ['*', '*'])) ++ v.data)) := by
    rw [highlightLoop, hsub]
    exact congrArg some hout
  show (highlightLoop [t] (u ++ w ++ v).data).map String.mk = _
  rw [hloop]
  show some (String.mk _) = _
  congr 1
  apply String.ext
  show u.data ++ (('*' :: '*' :: (t.data ++ ['*', '*'])) ++ v.data) = _
  rw [String.data_append, String.data_append, String.data_append, String.data_append]
  have hstar : ("**" : String).data = ['*', '*'] := rfl
  rw [hstar]
  simp [List.append_assoc]

/-- Witness for C2 amended: the occurrence `"Kitchen"` embedded in
`"She works in the Kitchen"` comes out spelled `"kitchen"`. -/
theorem c2_witness :
    highlight_tokens ("She works in the " ++ "Kitchen" ++ "") ["kitchen"] =
      some ("She works in the " ++ "**" ++ "kitchen" ++ "**" ++ "") ∧
    highlight_tokens "Kitchen girls" ["girls", "kitchen"] = some "**kitchen** **girls**" :=
  c2_token_spelling "She works in the " "Kitchen" "" "kitchen" (by decide) (by decide)
    (by decide) (by decide) (by decide) (by decide) (by decide) (by decide)

end SexismAnalyzer

namespace SexismAnalyzer

/-! ## C3: high-importance keywords and the cap of ten -/

/-- Adversarial but valid raw-draw stream for the C3 counterexample: draw
number 10 (the one scoring `"stitute"`) is 0, every other draw is 9/10. -/
def cexRng : Nat → ℚ := fun k => if k = 10 then 0 else 9/10

/-- Text for the C3 counterexample: it contains eleven of the `en`
`high_importance` keywords as written (and matches fourteen tokens in all,
since `"men"`, `"girl"` and `"ti"` also occur inside other words). -/
def cexText : String := "slut women girls fem wife scholar woman onde ches teaching stitute"

lemma cexRng_valid : ∀ k, 0 ≤ cexRng k ∧ cexRng k < 1 := by
  intro k
  rw [cexRng]
  split <;> norm_num

/-- C3 counterexample: `"stitute"` is an `en` `high_importance` keyword and a
substring of the lowered text, yet with the valid draws of `cexRng` the call
returns the ten other higher-scored tokens and drops `"stitute"` — the hard
cap of ten tokens cuts it off. -/
theorem c3_counterexample :
    "stitute" ∈ enTokens.high_importance ∧
    occursIn "stitute".data (lowerStr cexText).data = true ∧
    (get_important_tokens cexRng cexText "en" (19/20)).toOption =
      some ["slut", "women", "girls", "fem", "wife", "scholar", "woman",
            "onde", "ches", "teaching"] ∧
    "stitute" ∉ ["slut", "women", "girls", "fem", "wife", "scholar", "woman",
            "onde", "ches", "teaching"] := by
  refine ⟨by decide, by decide, ?_, by decide⟩
  with_unfolding_all decide

lemma lookup_dictInsert_self (key : String) (v : ℚ) :
    ∀ l : List (String × ℚ), List.lookup key (dictInsert key v l) = some v := by
  intro l
  induction l with
  | nil => simp [dictInsert, List.lookup]
  | cons p rest ih =>
    obtain ⟨k2, v2⟩ := p
    rw [dictInsert]
    split
    · next heq =>
      subst heq
      simp [List.lookup]
    · next hne =>
      have hbeq : (key == k2) = false := beq_eq_false_iff_ne.mpr (fun h => hne h.symm)
      simp only [List.lookup, hbeq]
      exact ih

lemma mem_of_lookup_eq_some (key : String) (v : ℚ) :
    ∀ l : List (String × ℚ), List.lookup key l = some v → (key, v) ∈ l := by
  intro l
  induction l with
  | nil => intro h; simp [List.lookup] at h
  | cons p rest ih =>
    intro h
    obtain ⟨k2, v2⟩ := p
    rw [List.lookup] at h
    cases hbeq : key == k2 with
    | true =>
      rw [hbeq] at h
      simp only [Option.some.injEq] at h
      have : key = k2 := beq_iff_eq.mp hbeq
      subst this
      subst h
      exact List.mem_cons_self _ _
    | false =>
      rw [hbeq] at h
      exact List.mem_cons_of_mem _ (ih h)

lemma lookup_ne_nil (key : String) (v : ℚ) (l : List (String × ℚ))
    (h : List.lookup key l = some v) : l ≠ [] := by
  intro h0
  rw [h0] at h
  simp [List.lookup] at h

lemma uniform_bounds (rng : Nat → ℚ) (hrng : ∀ k, 0 ≤ rng k ∧ rng k < 1)
    (k : Nat) (lo hi : ℚ) (hlh : lo ≤ hi) :
    lo ≤ uniform rng k lo hi ∧ uniform rng k lo hi ≤ hi := by
  have hu := hrng k
  unfold uniform
  constructor
  · nlinarith [hu.1, hu.2]
  · nlinarith [hu.1, hu.2]

lemma mem_dictInsert_pair (key : String) (v : ℚ) :
    ∀ (l : List (String × ℚ)) (p : String × ℚ), p ∈ dictInsert key v l →
      p.2 = v ∨ p ∈ l := by
  intro l
  induction l with
  | nil =>
    intro p hp
    simp only [dictInsert, List.mem_singleton] at hp
    subst hp
    exact Or.inl rfl
  | cons q rest ih =>
    intro p hp
    obtain ⟨k2, v2⟩ := q
    rw [dictInsert] at hp
    split at hp
    · rcases List.mem_cons.mp hp with h | h
      · subst h
        exact Or.inl rfl
      · exact Or.inr (List.mem_cons_of_mem _ h)
    · rcases List.mem_cons.mp hp with h | h
      · subst h
        exact Or.inr (List.mem_cons_self _ _)
      · rcases ih p h with h1 | h1
        · exact Or.inl h1
        · exact Or.inr (List.mem_cons_of_mem _ h1)

lemma scorePass_values (rng : Nat → ℚ) (lo hi : ℚ) (checkNew : Bool) (tl : String)
    (hrng : ∀ k, 0 ≤ rng k ∧ rng k < 1) (h0 : 0 ≤ lo) (hlh : lo ≤ hi) (h1 : hi ≤ 1) :
    ∀ (toks : List String) (st : List (String × ℚ) × Nat),
      (∀ p ∈ st.1, 0 ≤ p.2 ∧ p.2 ≤ 1) →
      ∀ p ∈ (scorePass rng lo hi checkNew tl toks st).1, 0 ≤ p.2 ∧ p.2 ≤ 1 := by
  intro toks
  induction toks with
  | nil => intro st h; exact h
  | cons tok rest ih =>
    intro st h
    obtain ⟨scores, k⟩ := st
    rw [scorePass]
    split
    · apply ih
      intro p hp
      rcases mem_dictInsert_pair tok _ scores p hp with h2 | h2
      · have hb := uniform_bounds rng hrng k lo hi hlh
        rw [h2]
        exact ⟨le_trans h0 hb.1, le_trans hb.2 h1⟩
      · exact h p h2
    · exact ih _ h

lemma fallbackPass_values (rng : Nat → ℚ) (hrng : ∀ k, 0 ≤ rng k ∧ rng k < 1) :
    ∀ (ws : List String) (st : List (String × ℚ) × Nat),
      (∀ p ∈ st.1, 0 ≤ p.2 ∧ p.2 ≤ 1) →
      ∀ p ∈ (fallbackPass rng ws st).1, 0 ≤ p.2 ∧ p.2 ≤ 1 := by
  intro ws
  induction ws with
  | nil => intro st h; exact h
  | cons w rest ih =>
    intro st h
    obtain ⟨scores, k⟩ := st
    rw [fallbackPass]
    split
    · apply ih
      intro p hp
      rcases mem_dictInsert_pair (cleanWord w) _ scores p hp with h2 | h2
      · have hb := uniform_bounds rng hrng k (1/10) (2/5) (by norm_num)
        rw [h2]
        constructor
        · linarith [hb.1]
        · linarith [hb.2]
      · exact h p h2
    · exact ih _ h

lemma token_scores_values (rng : Nat → ℚ) (tl : String) (lt : LangTokens)
    (hrng : ∀ k, 0 ≤ rng k ∧ rng k < 1) :
    ∀ p ∈ (token_scores rng tl lt).1, 0 ≤ p.2 ∧ p.2 ≤ 1 := by
  have h1 := scorePass_values rng (4/5) 1 false tl hrng (by norm_num) (by norm_num)
    (by norm_num) lt.high_importance ([], 0) (by simp)
  have h2 := scorePass_values rng (1/2) (4/5) true tl hrng (by norm_num) (by norm_num)
    (by norm_num) lt.medium_importance _ h1
  have h3 := scorePass_values rng (7/10) (19/20) true tl hrng (by norm_num) (by norm_num)
    (by norm_num) lt.sexist_indicators _ h2
  intro p hp
  rw [token_scores] at hp
  split at hp
  · exact fallbackPass_values rng hrng _ _ h3 p hp
  · exact h3 p hp

end SexismAnalyzer

namespace SexismAnalyzer

lemma scorePass_false_keeps_range (rng : Nat → ℚ) (lo hi : ℚ) (tl : String)
    (hrng : ∀ k, 0 ≤ rng k ∧ rng k < 1) (hlh : lo ≤ hi) (tok : String) :
    ∀ (toks : List String) (st : List (String × ℚ) × Nat),
      (∃ s, List.lookup tok st.1 = some s ∧ lo ≤ s ∧ s ≤ hi) →
      ∃ s, List.lookup tok (scorePass rng lo hi false tl toks st).1 = some s ∧
        lo ≤ s ∧ s ≤ hi := by
  intro toks
  induction toks with
  | nil => intro st h; exact h
  | cons t rest ih =>
    intro st h
    obtain ⟨scores, k⟩ := st
    rw [scorePass]
    split
    · apply ih
      by_cases hteq : tok = t
      · subst hteq
        refine ⟨uniform rng k lo hi, ?_, uniform_bounds rng hrng k lo hi hlh⟩
        exact lookup_dictInsert_self tok _ scores
      · obtain ⟨s, hs, hbs⟩ := h
        exact ⟨s, by rw [lookup_dictInsert_ne tok t _ hteq scores]; exact hs, hbs⟩
    · exact ih _ h

lemma scorePass_false_mem (rng : Nat → ℚ) (lo hi : ℚ) (tl : String)
    (hrng : ∀ k, 0 ≤ rng k ∧ rng k < 1) (hlh : lo ≤ hi) (tok : String)
    (hocc : occursIn tok.data tl.data = true) :
    ∀ (toks : List String) (st : List (String × ℚ) × Nat), tok ∈ toks →
      ∃ s, List.lookup tok (scorePass rng lo hi false tl toks st).1 = some s ∧
        lo ≤ s ∧ s ≤ hi := by
  intro toks
  induction toks with
  | nil => intro st h; simp at h
  | cons t rest ih =>
    intro st hmem
    obtain ⟨scores, k⟩ := st
    by_cases hteq : t = tok
    · subst hteq
      rw [scorePass]
      rw [if_pos (by simp [hocc])]
      apply scorePass_false_keeps_range rng lo hi tl hrng hlh t rest
      refine ⟨uniform rng k lo hi, ?_, uniform_bounds rng hrng k lo hi hlh⟩
      exact lookup_dictInsert_self t _ scores
    · have hmem2 : tok ∈ rest := by
        rcases List.mem_cons.mp hmem with h | h
        · exact absurd h.symm hteq
        · exact h
      rw [scorePass]
      split
      · exact ih _ hmem2
      · exact ih _ hmem2

lemma sum_le_card (l : List (String × ℚ)) (h : ∀ p ∈ l, p.2 ≤ 1) :
    (l.map Prod.snd).sum ≤ (l.length : ℚ) := by
  induction l with
  | nil => simp
  | cons p rest ih =>
    simp only [List.map_cons, List.sum_cons, List.length_cons]
    have h1 := h p (List.mem_cons_self _ _)
    have h2 := ih (fun q hq => h q (List.mem_cons_of_mem _ hq))
    push_cast
    linarith

lemma selectLoop_reach (threshold total : ℚ) (x : String × ℚ) :
    ∀ (pre : List (String × ℚ)) (post : List (String × ℚ)) (cum : ℚ) (cnt : Nat),
      (∀ p ∈ pre, 0 ≤ p.2) → 0 < total →
      cum + ((pre.map Prod.snd).sum) / total < threshold →
      cnt + pre.length + 1 ≤ 10 →
      x.1 ∈ selectLoop threshold total cum cnt (pre ++ x :: post) := by
  intro pre
  induction pre with
  | nil =>
    intro post cum cnt _ hT hthr hcnt
    obtain ⟨xa, xs⟩ := x
    simp only [List.nil_append]
    rw [selectLoop]
    set cum2 := cum + (if 0 < total then xs / total else 0) with hcum2
    by_cases hstop : threshold ≤ cum2 ∨ 10 ≤ cnt + 1
    · rw [if_pos hstop]
      exact List.mem_singleton.mpr rfl
    · rw [if_neg hstop]
      exact List.mem_cons_self _ _
  | cons p pre' ih =>
    intro post cum cnt hnn hT hthr hcnt
    obtain ⟨pa, ps⟩ := p
    simp only [List.cons_append]
    rw [selectLoop]
    have hps : (0:ℚ) ≤ ps := hnn (pa, ps) (List.mem_cons_self _ _)
    have hnn' : ∀ q ∈ pre', 0 ≤ q.2 := fun q hq => hnn q (List.mem_cons_of_mem _ hq)
    have hsum' : (0:ℚ) ≤ (pre'.map Prod.snd).sum := by
      apply List.sum_nonneg
      intro a ha
      rw [List.mem_map] at ha
      obtain ⟨q, hq, hq2⟩ := ha
      rw [← hq2]
      exact hnn' q hq
    have hsum_eq : ((pa, ps) :: pre').map Prod.snd = ps :: pre'.map Prod.snd := rfl
    have hcum2eq : cum + (if 0 < total then ps / total else 0) = cum + ps / total := by
      rw [if_pos hT]
    have hmono : cum + ps / total + (pre'.map Prod.snd).sum / total < threshold := by
      rw [add_assoc, div_add_div_same]
      rw [hsum_eq] at hthr
      simp only [List.sum_cons] at hthr
      exact hthr
    have hstop : ¬(threshold ≤ cum + (if 0 < total then ps / total else 0) ∨ 10 ≤ cnt + 1) := by
      rw [not_or]
      constructor
      · rw [hcum2eq]
        push_neg
        have : (0:ℚ) ≤ (pre'.map Prod.snd).sum / total := by positivity
        linarith
      · simp only [List.length_cons] at hcnt
        omega
    rw [if_neg hstop]
    apply List.mem_cons_of_mem
    apply ih post (cum + (if 0 < total then ps / total else 0)) (cnt + 1) hnn' hT
    · rw [hcum2eq]
      exact hmono
    · simp only [List.length_cons] at hcnt
      omega

end SexismAnalyzer

namespace SexismAnalyzer

/-- C3 amended: for every keyword table, every valid raw-draw stream and every
text whose lowering contains a `high_importance` keyword, the call with the
default threshold 0.95 includes that keyword in the returned sequence,
provided at most ten tokens were scored in that call (with eleven or more
scored tokens the hard cap of ten can cut the keyword off, as
`c3_counterexample` shows). -/
theorem c3_high_keyword_selected (rng : Nat → ℚ) (text : String) (lt : LangTokens)
    (key : String)
    (hrng : ∀ k, 0 ≤ rng k ∧ rng k < 1)
    (hk : key ∈ lt.high_importance)
    (hsub : occursIn key.data (lowerStr text).data = true)
    (hn : (token_scores rng (lowerStr text) lt).1.length ≤ 10) :
    key ∈ selectTokens rng text lt (19/20) := by
  obtain ⟨s, hs1, hs2, hs3⟩ := scorePass_false_mem rng (4/5) 1 (lowerStr text) hrng
    (by norm_num) key hsub lt.high_importance ([], 0) hk
  have hs1' : List.lookup key (stageHigh rng (lowerStr text) lt).1 = some s := hs1
  have hmj : List.lookup key (stageMedium rng (lowerStr text) lt).1 = some s := by
    rw [stageMedium]
    exact scorePass_lookup_some rng _ _ _ key s _ _ hs1'
  have hxj : List.lookup key (stageSexist rng (lowerStr text) lt).1 = some s := by
    rw [stageSexist]
    exact scorePass_lookup_some rng _ _ _ key s _ _ hmj
  have hts : token_scores rng (lowerStr text) lt = stageSexist rng (lowerStr text) lt := by
    rw [token_scores]
    rw [if_neg]
    rw [List.isEmpty_iff]
    exact lookup_ne_nil key s _ hxj
  have hlook : List.lookup key (token_scores rng (lowerStr text) lt).1 = some s := by
    rw [hts]
    exact hxj
  have hmem : (key, s) ∈ (token_scores rng (lowerStr text) lt).1 :=
    mem_of_lookup_eq_some key s _ hlook
  have hvals := token_scores_values rng (lowerStr text) lt hrng
  simp only [selectTokens]
  set scores := (token_scores rng (lowerStr text) lt).1 with hscores
  have hperm := sortDesc_perm scores
  have hmem2 : (key, s) ∈ sortDesc scores := hperm.mem_iff.mpr hmem
  obtain ⟨pre, post, hsplit⟩ := List.append_of_mem hmem2
  set total := ((sortDesc scores).map Prod.snd).sum with htotal
  have hsum_eq : total = (scores.map Prod.snd).sum := (hperm.map Prod.snd).sum_eq
  have hnonneg : ∀ p ∈ scores, 0 ≤ p.2 := fun p hp => (hvals p hp).1
  have hub : ∀ p ∈ scores, p.2 ≤ 1 := fun p hp => (hvals p hp).2
  have hTle : total ≤ 10 := by
    rw [hsum_eq]
    calc (scores.map Prod.snd).sum ≤ (scores.length : ℚ) := sum_le_card scores hub
    _ ≤ 10 := by exact_mod_cast hn
  have hsle : s ≤ total := by
    rw [hsum_eq]
    apply List.single_le_sum
    · intro a ha
      rw [List.mem_map] at ha
      obtain ⟨q, hq, hq2⟩ := ha
      rw [← hq2]
      exact hnonneg q hq
    · exact List.mem_map_of_mem Prod.snd hmem
  have hT : 0 < total := lt_of_lt_of_le (by norm_num : (0:ℚ) < 4/5) (le_trans hs2 hsle)
  have hdecomp : total = (pre.map Prod.snd).sum + s + (post.map Prod.snd).sum := by
    rw [htotal, hsplit]
    simp [List.map_append, List.sum_append]
    ring
  have hpost_nonneg : (0:ℚ) ≤ (post.map Prod.snd).sum := by
    apply List.sum_nonneg
    intro a ha
    rw [List.mem_map] at ha
    obtain ⟨q, hq, hq2⟩ := ha
    rw [← hq2]
    apply hnonneg
    apply hperm.subset
    rw [hsplit]
    exact List.mem_append_right _ (List.mem_cons_of_mem _ hq)
  have hpre_nonneg : ∀ p ∈ pre, (0:ℚ) ≤ p.2 := by
    intro p hp
    apply hnonneg
    apply hperm.subset
    rw [hsplit]
    exact List.mem_append_left _ hp
  have hthr : 0 + ((pre.map Prod.snd).sum) / total < 19/20 := by
    rw [zero_add]
    have h1 : (pre.map Prod.snd).sum ≤ total - s := by linarith [hpost_nonneg, hdecomp]
    have h2 : ((pre.map Prod.snd).sum) / total ≤ (total - s) / total :=
      (div_le_div_iff_of_pos_right hT).mpr h1
    have h3 : (total - s) / total < 19/20 := by
      rw [div_lt_div_iff₀ hT (by norm_num : (0:ℚ) < 20)]
      nlinarith [hs2, hTle]
    linarith
  have hlen : 0 + pre.length + 1 ≤ 10 := by
    have hleq : (sortDesc scores).length = scores.length := hperm.length_eq
    rw [hsplit] at hleq
    simp only [List.length_append, List.length_cons] at hleq
    omega
  rw [hsplit]
  exact selectLoop_reach (19/20) total (key, s) pre post 0 0 hpre_nonneg hT hthr hlen

/-- Witness for C3 amended: the text `"women"` matches the two `en`
high-importance keywords `"women"` and `"men"`, both of which are returned. -/
theorem c3_witness :
    "women" ∈ enTokens.high_importance ∧
    occursIn "women".data (lowerStr "women").data = true ∧
    (token_scores (fun _ => (1:ℚ)/2) (lowerStr "women") enTokens).1.length ≤ 10 ∧
    "women" ∈ selectTokens (fun _ => (1:ℚ)/2) "women" enTokens (19/20) :=
  ⟨by decide, by decide, by with_unfolding_all decide,
    c3_high_keyword_selected (fun _ => (1:ℚ)/2) "women" enTokens "women"
      (fun _ => ⟨by norm_num, by norm_num⟩) (by decide) (by decide)
      (by with_unfolding_all decide)⟩

end SexismAnalyzer

namespace SexismAnalyzer

/-- Highlighting the tokens selected by `get_important_tokens` never fails:
every selected token is a table keyword or a cleaned alphabetic word, so its
replacement template contains no backslash.  This discharges the `getD ""`
default in `analyze_tweet`. -/
lemma highlight_selected_isSome (rng : Nat → ℚ) (text language : String) (threshold : ℚ)
    (l : List String) (h : get_important_tokens rng text language threshold = Except.ok l) :
    (highlight_tokens text l).isSome = true := by
  have hnb : ∀ tok ∈ l, '\\' ∉ tok.data := by
    intro tok htok hmem
    unfold get_important_tokens at h
    cases htab : important_tokens_table language with
    | none =>
      rw [htab] at h
      exact Except.noConfusion h
    | some lt =>
      rw [htab] at h
      have hl := Except.ok.inj h
      rw [← hl] at htok
      have hmem2 := mem_selectTokens rng text lt threshold tok htok
      rw [List.mem_map] at hmem2
      obtain ⟨q, hq, hq2⟩ := hmem2
      have hfall : ∀ w ∈ (splitWords (lowerStr text)).take 5,
          (fun tok => tok.data.all (fun c => !(c == '\\'))) (cleanWord w) = true := by
        intro w hw
        rw [List.all_eq_true]
        intro d hd
        have hd2 : d.isAlpha = true := by
          simp only [cleanWord] at hd
          exact List.of_mem_filter hd
        simp only [Bool.not_eq_true']
        rw [beq_eq_false_iff_ne]
        intro hdd
        rw [hdd] at hd2
        exact absurd hd2 (by decide)
      have hhigh : ∀ tok2 ∈ lt.high_importance,
          (fun tok => tok.data.all (fun c => !(c == '\\'))) tok2 = true := by
        rcases table_cases language lt htab with he | he <;> subst he <;> decide
      have hmed : ∀ tok2 ∈ lt.medium_importance,
          (fun tok => tok.data.all (fun c => !(c == '\\'))) tok2 = true := by
        rcases table_cases language lt htab with he | he <;> subst he <;> decide
      have hsex : ∀ tok2 ∈ lt.sexist_indicators,
          (fun tok => tok.data.all (fun c => !(c == '\\'))) tok2 = true := by
        rcases table_cases language lt htab with he | he <;> subst he <;> decide
      have hP := token_scores_keys rng (lowerStr text) lt
        (fun tok => tok.data.all (fun c => !(c == '\\'))) hhigh hmed hsex hfall q hq
      simp only [] at hP
      rw [hq2] at hP
      rw [List.all_eq_true] at hP
      have hcontra := hP '\\' hmem
      simp at hcontra
  obtain ⟨out, hout, _⟩ := highlightLoop_no_backslash (sortLenDesc l) text.data
    (fun tok htok => hnb tok ((List.perm_insertionSort lenGe l).subset htok))
  rw [highlight_tokens, hout]
  rfl

end SexismAnalyzer
